import Mathlib

/-!
Verification of `gohttpserver`: a shallow embedding of the access-policy
resolver, the search index, the listing aggregator and the index builder
from `httpstaticserver.go`, together with theorems checking the spec's
claims about them.

Go strings are modelled as Lean `String`s, with the Go `strings` package
helpers re-implemented over the character list so that all definitions
evaluate by kernel reduction.
-/

set_option maxRecDepth 8192

namespace GHS

/-- File metadata as the server consumes it from `os.FileInfo`:
base name, directory flag, size in bytes and modification time. -/
structure FileInfo where
  name : String
  isDir : Bool
  size : Int
  modTime : Int
deriving DecidableEq, Repr

/-- `IndexFileItem` from `httpstaticserver.go`: one search-index entry, a
slash-normalized path relative to the root plus the file's metadata. -/
structure IndexFileItem where
  Path : String
  Info : FileInfo
deriving DecidableEq, Repr

/-- Contiguous-subsequence test on character lists. -/
def seqContains (sub : List Char) : List Char → Bool
  | [] => sub.isEmpty
  | c :: rest => sub.isPrefixOf (c :: rest) || seqContains sub rest

/-- Go `strings.Contains s sub`: `sub` occurs contiguously inside `s`. -/
def strContains (s sub : String) : Bool :=
  seqContains sub.toList s.toList

/-- Go `strings.HasPrefix s pre`. -/
def strStarts (s pre : String) : Bool :=
  pre.toList.isPrefixOf s.toList

/-- Go `s[n:]` on a string (drop the first `n` characters). -/
def strDrop (s : String) (n : Nat) : String :=
  String.mk (s.toList.drop n)

/-- Go `strings.ToLower` (ASCII case folding). -/
def strToLower (s : String) : String :=
  String.mk (s.toList.map Char.toLower)

/-- Worker for `strFields`: accumulate the current word (reversed) while
scanning; whitespace ends a word, empty words are dropped. -/
def strFieldsAux : List Char → List Char → List String
  | acc, [] => if acc.isEmpty then [] else [String.mk acc.reverse]
  | acc, c :: rest =>
    if c.isWhitespace then
      if acc.isEmpty then strFieldsAux [] rest
      else String.mk acc.reverse :: strFieldsAux [] rest
    else strFieldsAux (c :: acc) rest

/-- Go `strings.Fields`: split on whitespace runs, no empty fields. -/
def strFields (s : String) : List String :=
  strFieldsAux [] s.toList

/-- The inner keyword loop of `findIndex`: `ok` is recomputed for each
keyword and the loop breaks as soon as one keyword fails; a leading `-`
negates the containment test and a keyword that is empty after stripping
the `-` is skipped. -/
def keywordsOk (path : String) : List String → Bool
  | [] => true
  | keyword :: rest =>
    let needContains := !(strStarts keyword "-")
    let kw := if strStarts keyword "-" then strDrop keyword 1 else keyword
    if kw = "" then keywordsOk path rest
    else if needContains == strContains (strToLower path) (strToLower kw) then
      keywordsOk path rest
    else false

/-- `findIndex` from `httpstaticserver.go`: scan the index in order and
append every item that all search keywords accept. -/
def findIndex (indexes : List IndexFileItem) (text : String) : List IndexFileItem :=
  indexes.foldl
    (fun ret item => if keywordsOk item.Path (strFields text) then ret ++ [item] else ret)
    []

theorem foldl_append_ite_eq_filter {α} (p : α → Bool) (l acc : List α) :
    l.foldl (fun ret item => if p item then ret ++ [item] else ret) acc
      = acc ++ l.filter p := by
  induction l generalizing acc with
  | nil => simp
  | cons a t ih =>
    by_cases h : p a
    · simp [List.foldl, h, ih, List.filter_cons]
    · simp [List.foldl, h, ih, List.filter_cons]

theorem strContains_empty_sub (s : String) : strContains s "" = true := by
  show seqContains [] s.toList = true
  cases h : s.toList with
  | nil => rfl
  | cons c rest => simp [seqContains, List.isPrefixOf]

theorem keywordsOk_eq_all (path : String) (toks : List String) :
    keywordsOk path toks
      = toks.all (fun keyword =>
          if strStarts keyword "-" then
            ((strDrop keyword 1 = "") ||
              !(strContains (strToLower path) (strToLower (strDrop keyword 1))))
          else strContains (strToLower path) (strToLower keyword)) := by
  induction toks with
  | nil => rfl
  | cons k rest ih =>
    simp only [keywordsOk, List.all_cons]
    by_cases hneg : strStarts k "-"
    · by_cases hemp : strDrop k 1 = ""
      · simp [hneg, hemp, ih]
      · by_cases hc : strContains (strToLower path) (strToLower (strDrop k 1))
        · simp [hneg, hemp, hc, ih]
        · simp [hneg, hemp, hc, ih]
    · by_cases hk : k = ""
      · subst hk
        have hc : strContains (strToLower path) (strToLower "") = true := by
          have : strToLower "" = "" := rfl
          rw [this, strContains_empty_sub]
        simp [hneg, hc, ih]
      · by_cases hc : strContains (strToLower path) (strToLower k)
        · simp [hneg, hk, hc, ih]
        · simp [hneg, hk, hc, ih]

def demoFileInfo : FileInfo := ⟨"f", false, 0, 0⟩

def demoIndexes : List IndexFileItem :=
  [⟨"docs/readme.md", demoFileInfo⟩, ⟨"docs/notes.txt", demoFileInfo⟩,
   ⟨"src/main.go", demoFileInfo⟩]

/-- C4: `findIndex` splits the query on whitespace; a `-`-prefixed token
requires the path NOT to contain the rest of the token case-insensitively,
any other token requires containment, empty tokens are ignored, an entry is
returned iff every token succeeds, and results preserve snapshot order
(the result is a filter of the index); on the demo index the query
`"docs -notes"` returns exactly `docs/readme.md`. -/
theorem C4_search_token_semantics :
    (∀ indexes text, findIndex indexes text
        = indexes.filter (fun item =>
            (strFields text).all (fun keyword =>
              if strStarts keyword "-" then
                ((strDrop keyword 1 = "") ||
                  !(strContains (strToLower item.Path)
                      (strToLower (strDrop keyword 1))))
              else strContains (strToLower item.Path) (strToLower keyword))))
    ∧ findIndex demoIndexes "docs -notes" = [⟨"docs/readme.md", demoFileInfo⟩] := by
  constructor
  · intro indexes text
    rw [findIndex, foldl_append_ite_eq_filter]
    simp only [List.nil_append]
    congr 1
    funext item
    exact keywordsOk_eq_all item.Path (strFields text)
  · decide

/-- `AccessTable` from the source: one path rule, a regular-expression
pattern string and the allow/deny decision it carries. -/
structure AccessTable where
  Regex : String
  Allow : Bool
deriving DecidableEq, Repr

/-- `UserControl` from the source: a per-user override keyed by email. -/
structure UserControl where
  Email : String
  Upload : Bool
  Delete : Bool
deriving DecidableEq, Repr

/-- `AccessConf` from the source: the resolved access policy. -/
structure AccessConf where
  Upload : Bool
  Delete : Bool
  Users : List UserControl
  AccessTables : List AccessTable
deriving DecidableEq, Repr

/-- The keys a `.ghs.yml` sidecar document may set; `none` means the key is
absent from the document, so the inherited value survives. -/
structure SidecarConf where
  upload : Option Bool := none
  delete : Option Bool := none
  users : Option (List UserControl) := none
  accessTables : Option (List AccessTable) := none
deriving DecidableEq, Repr

/-- The on-disk state of one directory's `.ghs.yml`: parsed successfully,
or present but malformed. Modelled from the spec: `yaml.Unmarshal` is not
part of this repository; per the spec a parse error leaves the target
policy unchanged ("no override at this level"). -/
inductive SidecarFile where
  | parsed (sc : SidecarConf)
  | malformed
deriving DecidableEq, Repr

/-- The filesystem facts policy resolution consults: request paths are
segment lists below the root, `sidecar p` is the state of `p/.ghs.yml`
(`none` when the file does not exist), and `isFile p` says whether `p`
names a regular file. -/
structure ConfFS where
  sidecar : List String → Option SidecarFile
  isFile : List String → Bool

/-- The process-wide `HTTPStaticServer` flags relevant to policy. -/
structure ServerConf where
  Upload : Bool
  Delete : Bool
deriving DecidableEq, Repr

/-- `defaultAccessConf` from the source: only the global upload flag is
copied into the root policy; every other field is the Go zero value. -/
def defaultAccessConf (s : ServerConf) : AccessConf :=
  { Upload := s.Upload, Delete := false, Users := [], AccessTables := [] }

/-- `yaml.Unmarshal` of a parsed sidecar into an existing `AccessConf`:
every key present replaces the corresponding field wholesale, absent keys
leave the field unchanged. -/
def overlaySidecar (sc : SidecarConf) (ac : AccessConf) : AccessConf :=
  { Upload := sc.upload.getD ac.Upload
    Delete := sc.delete.getD ac.Delete
    Users := sc.users.getD ac.Users
    AccessTables := sc.accessTables.getD ac.AccessTables }

/-- One level of `readAccessConf` after its recursive call: read `.ghs.yml`
in the directory owning `p` (a file's containing directory when `p` names
a file); a missing sidecar returns the inherited policy, a malformed one is
logged and leaves it unchanged, a parsed one is overlaid. -/
def readConfLevel (fs : ConfFS) (p : List String) (ac : AccessConf) : AccessConf :=
  let dirP := if fs.isFile p then p.dropLast else p
  match fs.sidecar dirP with
  | none => ac
  | some SidecarFile.malformed => ac
  | some (SidecarFile.parsed sc) => overlaySidecar sc ac

/-- Worker for `readAccessConf`, structurally recursive on the reversed
segment list (the Go code recurses on `filepath.Dir`, i.e. on `dropLast`). -/
def readAccessConfRev (fs : ConfFS) (s : ServerConf) : List String → AccessConf
  | [] => readConfLevel fs [] (defaultAccessConf s)
  | x :: rest => readConfLevel fs ((x :: rest).reverse) (readAccessConfRev fs s rest)

/-- `readAccessConf` from the source: resolve the parent's policy first,
then overlay this level's sidecar; the root level starts from
`defaultAccessConf`. -/
def readAccessConf (fs : ConfFS) (s : ServerConf) (p : List String) : AccessConf :=
  readAccessConfRev fs s p.reverse

theorem readAccessConf_snoc (fs : ConfFS) (s : ServerConf) (p : List String)
    (x : String) :
    readAccessConf fs s (p ++ [x])
      = readConfLevel fs (p ++ [x]) (readAccessConf fs s p) := by
  show readAccessConfRev fs s (p ++ [x]).reverse = _
  rw [show (p ++ [x]).reverse = x :: p.reverse from by simp]
  show readConfLevel fs ((x :: p.reverse).reverse) (readAccessConfRev fs s p.reverse) = _
  rw [show (x :: p.reverse).reverse = p ++ [x] from by simp]
  rfl

theorem readAccessConf_eq_foldl (fs : ConfFS) (s : ServerConf) (p : List String) :
    readAccessConf fs s p
      = p.inits.foldl (fun ac q => readConfLevel fs q ac) (defaultAccessConf s) := by
  induction p using List.reverseRecOn with
  | nil => rfl
  | append_singleton q x ih =>
    rw [readAccessConf_snoc, ih, List.inits_append]
    simp

/-- Filesystem for the overlay example: root sidecar sets `upload: false`,
the sidecar at `a` sets `upload: true`, and no other sidecar exists. -/
def demoConfFS : ConfFS :=
  { sidecar := fun p =>
      if p = ([] : List String) then
        some (SidecarFile.parsed { upload := some false })
      else if p = ["a"] then
        some (SidecarFile.parsed { upload := some true })
      else none
    isFile := fun _ => false }

/-- C1: the effective policy is obtained by resolving the parent first and
then overlaying the directory's own sidecar (equivalently, a left fold of
per-level overlays over the path's ancestors); each key present in a
sidecar fully replaces the inherited field and absent keys inherit
unchanged; the root policy is seeded from the global upload flag; and on
the demo filesystem `resolve "a/b"` allows upload while `resolve "x"`
does not. -/
theorem C1_sidecar_overlay_resolution :
    (∀ fs s, readAccessConf fs s [] = readConfLevel fs [] (defaultAccessConf s))
    ∧ (∀ fs s p x, readAccessConf fs s (p ++ [x])
          = readConfLevel fs (p ++ [x]) (readAccessConf fs s p))
    ∧ (∀ fs s p, readAccessConf fs s p
          = p.inits.foldl (fun ac q => readConfLevel fs q ac) (defaultAccessConf s))
    ∧ (∀ sc ac, overlaySidecar sc ac
          = { Upload := sc.upload.getD ac.Upload, Delete := sc.delete.getD ac.Delete
              Users := sc.users.getD ac.Users
              AccessTables := sc.accessTables.getD ac.AccessTables })
    ∧ (∀ s, defaultAccessConf s
          = { Upload := s.Upload, Delete := false, Users := [], AccessTables := [] })
    ∧ (∀ s, (readAccessConf demoConfFS s ["a", "b"]).Upload = true
          ∧ (readAccessConf demoConfFS s ["x"]).Upload = false) := by
  refine ⟨fun fs s => rfl, readAccessConf_snoc, readAccessConf_eq_foldl,
    fun sc ac => rfl, fun s => rfl, fun s => ⟨rfl, rfl⟩⟩

/-- C7: a level whose sidecar exists but fails to parse does not fail
resolution; the policy at that level equals the parent-resolved policy,
both at inner levels and at the root. -/
theorem C7_malformed_sidecar_fallback (fs : ConfFS) (s : ServerConf) :
    (∀ p x, fs.isFile (p ++ [x]) = false
        → fs.sidecar (p ++ [x]) = some SidecarFile.malformed
        → readAccessConf fs s (p ++ [x]) = readAccessConf fs s p)
    ∧ (fs.sidecar ([] : List String) = some SidecarFile.malformed
        → readAccessConf fs s [] = defaultAccessConf s) := by
  constructor
  · intro p x hfile hmal
    rw [readAccessConf_snoc]
    simp [readConfLevel, hfile, hmal]
  · intro hmal
    show readConfLevel fs [] (defaultAccessConf s) = defaultAccessConf s
    simp [readConfLevel, hmal]

/-- Filesystem with a single, malformed sidecar at `m`. -/
def malConfFS : ConfFS :=
  { sidecar := fun p => if p = ["m"] then some SidecarFile.malformed else none
    isFile := fun _ => false }

/-- Witness for C7 at a concrete filesystem: the malformed sidecar at `m`
leaves the policy equal to the root policy. -/
theorem C7_malformed_sidecar_fallback_witness :
    readAccessConf malConfFS ⟨true, false⟩ ([] ++ ["m"])
      = readAccessConf malConfFS ⟨true, false⟩ [] :=
  (C7_malformed_sidecar_fallback malConfFS ⟨true, false⟩).1 [] "m" rfl rfl

/-- `UserInfo` as consumed from the session store (only the email is used
as the override lookup key). -/
structure UserInfo where
  Email : String
deriving DecidableEq, Repr

/-- `canDelete` from the source: without an identity (failed session lookup
or no user in the session) the policy's delete flag decides; with one, the
first user override with a matching email decides, falling back to the
policy flag. -/
def canDelete (c : AccessConf) (ident : Option UserInfo) : Bool :=
  match ident with
  | none => c.Delete
  | some u =>
    match c.Users.find? (fun rule => rule.Email == u.Email) with
    | some rule => rule.Delete
    | none => c.Delete

/-- `canUpload` from the source, same shape as `canDelete`. -/
def canUpload (c : AccessConf) (ident : Option UserInfo) : Bool :=
  match ident with
  | none => c.Upload
  | some u =>
    match c.Users.find? (fun rule => rule.Email == u.Email) with
    | some rule => rule.Upload
    | none => c.Upload

/-- Outcome of the DELETE handler's authorization gate. -/
inductive DeleteOutcome where
  | forbidden403
  | removeAttempt
deriving DecidableEq, Repr

/-- `hDelete` from the source up to the authorization gate: resolve the
policy for the request path and answer 403 Forbidden, removing nothing,
unless `canDelete` grants the caller. -/
def hDelete (fs : ConfFS) (s : ServerConf) (path : List String)
    (ident : Option UserInfo) : DeleteOutcome :=
  let auth := readAccessConf fs s path
  if !(canDelete auth ident) then DeleteOutcome.forbidden403
  else DeleteOutcome.removeAttempt

theorem readAccessConf_no_sidecar (fs : ConfFS) (s : ServerConf)
    (hno : ∀ q, fs.sidecar q = none) (p : List String) :
    readAccessConf fs s p = defaultAccessConf s := by
  show readAccessConfRev fs s p.reverse = _
  induction p.reverse with
  | nil =>
    show readConfLevel fs [] (defaultAccessConf s) = _
    rw [readConfLevel]
    cases hfile : fs.isFile [] <;> simp [hfile, hno]
  | cons x rest ih =>
    show readConfLevel fs ((x :: rest).reverse) (readAccessConfRev fs s rest) = _
    rw [readConfLevel, ih]
    cases hfile : fs.isFile ((x :: rest).reverse) <;> simp [hfile, hno]

/-- C10: with no sidecar anywhere, the resolved policy is the root default,
whose delete flag is false regardless of the global flags, so `canDelete`
answers false for every caller and the DELETE handler answers 403 without
removing anything. -/
theorem C10_delete_denied_by_default (fs : ConfFS) (s : ServerConf)
    (hno : ∀ q, fs.sidecar q = none) :
    (∀ p ident, canDelete (readAccessConf fs s p) ident = false
        ∧ hDelete fs s p ident = DeleteOutcome.forbidden403)
    ∧ (∀ s', defaultAccessConf s'
        = { Upload := s'.Upload, Delete := false, Users := [], AccessTables := [] }) := by
  refine ⟨fun p ident => ?_, fun s' => rfl⟩
  have hd : canDelete (readAccessConf fs s p) ident = false := by
    rw [readAccessConf_no_sidecar fs s hno p]
    cases ident with
    | none => rfl
    | some u => rfl
  exact ⟨hd, by rw [hDelete, hd]; rfl⟩

/-- Filesystem with no sidecar at all. -/
def bareConfFS : ConfFS :=
  { sidecar := fun _ => none, isFile := fun _ => false }

/-- Witness for C10: even with both global flags on and an authenticated
caller, deletion of `f` is forbidden when no sidecar exists. -/
theorem C10_delete_denied_by_default_witness :
    canDelete (readAccessConf bareConfFS ⟨true, true⟩ ["f"]) (some ⟨"[email protected]"⟩) = false
      ∧ hDelete bareConfFS ⟨true, true⟩ ["f"] (some ⟨"[email protected]"⟩)
          = DeleteOutcome.forbidden403 :=
  (C10_delete_denied_by_default bareConfFS ⟨true, true⟩ (fun _ => rfl)).1
    ["f"] (some ⟨"[email protected]"⟩)

/-- An abstract regular-expression engine standing in for Go's `regexp`
package (an external collaborator of this file): `compile` returns `none`
exactly on the patterns `regexp.Compile` rejects (after which the Go code
holds a nil `*Regexp`), and `rmatch` is `MatchString`. -/
structure RegexEngine (ρ : Type) where
  compile : String → Option ρ
  rmatch : ρ → String → Bool

/-- The process-wide compiled-pattern cache `reCache` in insertion order;
a key mapped to `none` records a pattern that failed to compile. -/
abbrev ReCache (ρ : Type) := List (String × Option ρ)

/-- Go map lookup on the cache. -/
def cacheLookup {ρ} : ReCache ρ → String → Option (Option ρ)
  | [], _ => none
  | kv :: rest, k => if kv.1 = k then some kv.2 else cacheLookup rest k

/-- `canAccess` from the source, with the cache threaded explicitly and the
patterns handed to `regexp.Compile` during the call recorded in the third
component: walk the rules in order; on a cache miss compile the pattern
once and insert the result (nil included); rules whose cached pattern is
nil are skipped; the first rule whose pattern matches the file name returns
its allow flag; no match ⇒ allow. -/
def canAccessRun {ρ} (e : RegexEngine ρ) :
    ReCache ρ → List AccessTable → String → Bool × ReCache ρ × List String
  | cache, [], _ => (true, cache, [])
  | cache, table :: rest, fileName =>
    match cacheLookup cache table.Regex with
    | some (some re) =>
      if e.rmatch re fileName then (table.Allow, cache, [])
      else canAccessRun e cache rest fileName
    | some none => canAccessRun e cache rest fileName
    | none =>
      match e.compile table.Regex with
      | some re =>
        if e.rmatch re fileName then
          (table.Allow, cache ++ [(table.Regex, some re)], [table.Regex])
        else
          match canAccessRun e (cache ++ [(table.Regex, some re)]) rest fileName with
          | (b, c, l) => (b, c, table.Regex :: l)
      | none =>
        match canAccessRun e (cache ++ [(table.Regex, none)]) rest fileName with
        | (b, c, l) => (b, c, table.Regex :: l)

/-- The boolean result of `canAccess` on a policy. -/
def canAccess {ρ} (e : RegexEngine ρ) (cache : ReCache ρ) (c : AccessConf)
    (fileName : String) : Bool :=
  (canAccessRun e cache c.AccessTables fileName).1

/-- Whether pattern `pat` matches `fileName` under engine `e`; a pattern
that does not compile matches nothing. -/
def patternMatches {ρ} (e : RegexEngine ρ) (pat fileName : String) : Bool :=
  match e.compile pat with
  | some re => e.rmatch re fileName
  | none => false

/-- Every cache entry agrees with what the engine would compile for its
key; this is the invariant `reCache` maintains, since it only ever stores
`regexp.Compile` results. -/
def cacheConsistent {ρ} (e : RegexEngine ρ) (c : ReCache ρ) : Prop :=
  ∀ k v, cacheLookup c k = some v → v = e.compile k

theorem cacheLookup_append {ρ} (c d : ReCache ρ) (k : String) :
    cacheLookup (c ++ d) k = (cacheLookup c k).or (cacheLookup d k) := by
  induction c with
  | nil => simp [cacheLookup]
  | cons kv rest ih =>
    by_cases h : kv.1 = k
    · simp [cacheLookup, h]
    · simp [cacheLookup, h, ih]

theorem cacheLookup_append_of_some {ρ} (c d : ReCache ρ) (k : String)
    (v : Option ρ) (h : cacheLookup c k = some v) :
    cacheLookup (c ++ d) k = some v := by
  rw [cacheLookup_append, h]; rfl

theorem cacheConsistent_append_compile {ρ} (e : RegexEngine ρ) (c : ReCache ρ)
    (k : String) (hc : cacheConsistent e c) :
    cacheConsistent e (c ++ [(k, e.compile k)]) := by
  intro k' v h
  rw [cacheLookup_append] at h
  cases hl : cacheLookup c k' with
  | some v' =>
    rw [hl] at h
    simp only [Option.or_some] at h
    cases h
    exact hc k' v hl
  | none =>
    rw [hl] at h
    simp only [Option.or] at h
    by_cases hk : k = k'
    · subst hk
      simp [cacheLookup] at h
      subst h
      rfl
    · simp [cacheLookup, hk] at h

theorem canAccessRun_cache_extends {ρ} (e : RegexEngine ρ)
    (tables : List AccessTable) (fileName : String) (cache : ReCache ρ) :
    ∃ d, (canAccessRun e cache tables fileName).2.1 = cache ++ d := by
  induction tables generalizing cache with
  | nil => exact ⟨[], by simp [canAccessRun]⟩
  | cons t rest ih =>
    simp only [canAccessRun]
    cases hl : cacheLookup cache t.Regex with
    | some p =>
      cases p with
      | none => exact ih cache
      | some re =>
        by_cases hm : e.rmatch re fileName
        · exact ⟨[], by simp [hm]⟩
        · simpa [hm] using ih cache
    | none =>
      cases hcomp : e.compile t.Regex with
      | some re =>
        by_cases hm : e.rmatch re fileName
        · exact ⟨[(t.Regex, some re)], by simp [hm]⟩
        · obtain ⟨d, hd⟩ := ih (cache ++ [(t.Regex, some re)])
          refine ⟨[(t.Regex, some re)] ++ d, ?_⟩
          simp only [hm, if_false]
          cases hrun : canAccessRun e (cache ++ [(t.Regex, some re)]) rest fileName with
          | mk b cl =>
            rw [hrun] at hd
            simpa using hd
      | none =>
        obtain ⟨d, hd⟩ := ih (cache ++ [(t.Regex, none)])
        refine ⟨[(t.Regex, none)] ++ d, ?_⟩
        cases hrun : canAccessRun e (cache ++ [(t.Regex, none)]) rest fileName with
        | mk b cl =>
          rw [hrun] at hd
          simpa using hd

theorem canAccessRun_fst_eq_find {ρ} (e : RegexEngine ρ)
    (tables : List AccessTable) (fileName : String) (cache : ReCache ρ)
    (hc : cacheConsistent e cache) :
    (canAccessRun e cache tables fileName).1
      = ((tables.find? (fun t => patternMatches e t.Regex fileName)).map
          AccessTable.Allow).getD true := by
  induction tables generalizing cache with
  | nil => rfl
  | cons t rest ih =>
    simp only [canAccessRun]
    cases hl : cacheLookup cache t.Regex with
    | some p =>
      have hp := hc _ _ hl
      cases p with
      | none =>
        have hpm : patternMatches e t.Regex fileName = false := by
          rw [patternMatches, ← hp]
        rw [List.find?_cons_of_neg _ (by simp [hpm])]
        exact ih cache hc
      | some re =>
        by_cases hm : e.rmatch re fileName
        · have hpm : patternMatches e t.Regex fileName = true := by
            rw [patternMatches, ← hp]
            exact hm
          rw [List.find?_cons_of_pos _ (by simp [hpm])]
          simp [hm]
        · have hpm : patternMatches e t.Regex fileName = false := by
            rw [patternMatches, ← hp]
            simpa using hm
          rw [List.find?_cons_of_neg _ (by simp [hpm])]
          simp only [hm, if_false]
          exact ih cache hc
    | none =>
      cases hcomp : e.compile t.Regex with
      | some re =>
        have hc' : cacheConsistent e (cache ++ [(t.Regex, some re)]) := by
          rw [← hcomp]
          exact cacheConsistent_append_compile e cache t.Regex hc
        by_cases hm : e.rmatch re fileName
        · have hpm : patternMatches e t.Regex fileName = true := by
            rw [patternMatches, hcomp]
            exact hm
          rw [List.find?_cons_of_pos _ (by simp [hpm])]
          simp [hm]
        · have hpm : patternMatches e t.Regex fileName = false := by
            rw [patternMatches, hcomp]
            simpa using hm
          rw [List.find?_cons_of_neg _ (by simp [hpm])]
          simp only [hm, if_false]
          cases hrun : canAccessRun e (cache ++ [(t.Regex, some re)]) rest fileName with
          | mk b cl =>
            have := ih (cache ++ [(t.Regex, some re)]) hc'
            rw [hrun] at this
            simpa using this
      | none =>
        have hc' : cacheConsistent e (cache ++ [(t.Regex, none)]) := by
          rw [← hcomp]
          exact cacheConsistent_append_compile e cache t.Regex hc
        have hpm : patternMatches e t.Regex fileName = false := by
          rw [patternMatches, hcomp]
        rw [List.find?_cons_of_neg _ (by simp [hpm])]
        cases hrun : canAccessRun e (cache ++ [(t.Regex, none)]) rest fileName with
        | mk b cl =>
          have := ih (cache ++ [(t.Regex, none)]) hc'
          rw [hrun] at this
          simpa using this

/-- A two-pattern demo regex type: `\.secret$` and `.*`. -/
inductive DemoRe where
  | dotSecret
  | anyChars
deriving DecidableEq, Repr

/-- A concrete engine interpreting exactly the two demo patterns. -/
def demoEngine : RegexEngine DemoRe :=
  { compile := fun pat =>
      if pat = "\\.secret$" then some DemoRe.dotSecret
      else if pat = ".*" then some DemoRe.anyChars
      else none
    rmatch := fun re s =>
      match re with
      | DemoRe.dotSecret => ".secret".toList.isSuffixOf s.toList
      | DemoRe.anyChars => true }

/-- The demo policy of the claim: deny `\.secret$`, then allow `.*`. -/
def demoSecretConf : AccessConf :=
  { Upload := false, Delete := false, Users := []
    AccessTables := [⟨"\\.secret$", false⟩, ⟨".*", true⟩] }

/-- C2: rules are evaluated in order and the first rule whose pattern
matches the file name decides allow/deny (a pattern that does not compile
matches nothing), with default allow when no rule matches — stated as
equality with a first-match specification over the rule list — and on the
demo policy `x.secret` is denied while `x.txt` is allowed. -/
theorem C2_rule_precedence {ρ} (e : RegexEngine ρ) (cache : ReCache ρ)
    (tables : List AccessTable) (fileName : String)
    (hc : cacheConsistent e cache) :
    ((canAccessRun e cache tables fileName).1
        = ((tables.find? (fun t => patternMatches e t.Regex fileName)).map
            AccessTable.Allow).getD true)
    ∧ canAccess demoEngine [] demoSecretConf "x.secret" = false
    ∧ canAccess demoEngine [] demoSecretConf "x.txt" = true := by
  refine ⟨canAccessRun_fst_eq_find e tables fileName cache hc, by decide, by decide⟩

/-- Witness for C2 at concrete inputs: the empty cache is consistent, and
the run over the demo policy equals its first-match specification. -/
theorem C2_rule_precedence_witness :
    (canAccessRun demoEngine [] demoSecretConf.AccessTables "x.secret").1
      = ((demoSecretConf.AccessTables.find?
            (fun t => patternMatches demoEngine t.Regex "x.secret")).map
          AccessTable.Allow).getD true :=
  (C2_rule_precedence demoEngine [] demoSecretConf.AccessTables "x.secret"
    (fun _ _ h => nomatch h)).1

theorem canAccessRun_hit_skip {ρ} (e : RegexEngine ρ) (cache : ReCache ρ)
    (t : AccessTable) (rest : List AccessTable) (fileName : String)
    (hl : cacheLookup cache t.Regex = some none) :
    canAccessRun e cache (t :: rest) fileName
      = canAccessRun e cache rest fileName := by
  simp only [canAccessRun, hl]

theorem canAccessRun_hit_match {ρ} (e : RegexEngine ρ) (cache : ReCache ρ)
    (t : AccessTable) (rest : List AccessTable) (fileName : String) (re : ρ)
    (hl : cacheLookup cache t.Regex = some (some re))
    (hm : e.rmatch re fileName = true) :
    canAccessRun e cache (t :: rest) fileName = (t.Allow, cache, []) := by
  simp only [canAccessRun, hl, hm, if_true]

theorem canAccessRun_hit_nomatch {ρ} (e : RegexEngine ρ) (cache : ReCache ρ)
    (t : AccessTable) (rest : List AccessTable) (fileName : String) (re : ρ)
    (hl : cacheLookup cache t.Regex = some (some re))
    (hm : e.rmatch re fileName = false) :
    canAccessRun e cache (t :: rest) fileName
      = canAccessRun e cache rest fileName := by
  simp only [canAccessRun, hl, hm, Bool.false_eq_true, if_false]

theorem canAccessRun_miss_match {ρ} (e : RegexEngine ρ) (cache : ReCache ρ)
    (t : AccessTable) (rest : List AccessTable) (fileName : String) (re : ρ)
    (hl : cacheLookup cache t.Regex = none)
    (hcomp : e.compile t.Regex = some re)
    (hm : e.rmatch re fileName = true) :
    canAccessRun e cache (t :: rest) fileName
      = (t.Allow, cache ++ [(t.Regex, some re)], [t.Regex]) := by
  simp only [canAccessRun, hl, hcomp, hm, if_true]

theorem canAccessRun_miss_nomatch {ρ} (e : RegexEngine ρ) (cache : ReCache ρ)
    (t : AccessTable) (rest : List AccessTable) (fileName : String) (re : ρ)
    (hl : cacheLookup cache t.Regex = none)
    (hcomp : e.compile t.Regex = some re)
    (hm : e.rmatch re fileName = false) :
    canAccessRun e cache (t :: rest) fileName
      = ((canAccessRun e (cache ++ [(t.Regex, some re)]) rest fileName).1,
         (canAccessRun e (cache ++ [(t.Regex, some re)]) rest fileName).2.1,
         t.Regex ::
           (canAccessRun e (cache ++ [(t.Regex, some re)]) rest fileName).2.2) := by
  simp only [canAccessRun, hl, hcomp, hm, Bool.false_eq_true, if_false]

theorem canAccessRun_miss_invalid {ρ} (e : RegexEngine ρ) (cache : ReCache ρ)
    (t : AccessTable) (rest : List AccessTable) (fileName : String)
    (hl : cacheLookup cache t.Regex = none)
    (hcomp : e.compile t.Regex = none) :
    canAccessRun e cache (t :: rest) fileName
      = ((canAccessRun e (cache ++ [(t.Regex, none)]) rest fileName).1,
         (canAccessRun e (cache ++ [(t.Regex, none)]) rest fileName).2.1,
         t.Regex ::
           (canAccessRun e (cache ++ [(t.Regex, none)]) rest fileName).2.2) := by
  simp only [canAccessRun, hl, hcomp]

theorem canAccessRun_log_fresh {ρ} (e : RegexEngine ρ)
    (tables : List AccessTable) (fileName : String) (cache : ReCache ρ)
    (p : String) (hp : cacheLookup cache p ≠ none) :
    p ∉ (canAccessRun e cache tables fileName).2.2 := by
  induction tables generalizing cache with
  | nil => simp [canAccessRun]
  | cons t rest ih =>
    have hne : cacheLookup cache t.Regex = none → p ≠ t.Regex := by
      intro hl h
      subst h
      exact hp hl
    cases hl : cacheLookup cache t.Regex with
    | some q =>
      cases q with
      | none =>
        rw [canAccessRun_hit_skip e cache t rest fileName hl]
        exact ih cache hp
      | some re =>
        cases hm : e.rmatch re fileName with
        | true =>
          rw [canAccessRun_hit_match e cache t rest fileName re hl hm]
          simp
        | false =>
          rw [canAccessRun_hit_nomatch e cache t rest fileName re hl hm]
          exact ih cache hp
    | none =>
      have hp' : ∀ v : Option ρ, cacheLookup (cache ++ [(t.Regex, v)]) p ≠ none := by
        intro v
        rw [cacheLookup_append]
        cases hpl : cacheLookup cache p with
        | none => exact absurd hpl hp
        | some w => simp
      cases hcomp : e.compile t.Regex with
      | some re =>
        cases hm : e.rmatch re fileName with
        | true =>
          rw [canAccessRun_miss_match e cache t rest fileName re hl hcomp hm]
          simp [hne hl]
        | false =>
          rw [canAccessRun_miss_nomatch e cache t rest fileName re hl hcomp hm]
          simp only [List.mem_cons, not_or]
          exact ⟨hne hl, ih (cache ++ [(t.Regex, some re)]) (hp' (some re))⟩
      | none =>
        rw [canAccessRun_miss_invalid e cache t rest fileName hl hcomp]
        simp only [List.mem_cons, not_or]
        exact ⟨hne hl, ih (cache ++ [(t.Regex, none)]) (hp' none)⟩

theorem canAccessRun_log_in_final {ρ} (e : RegexEngine ρ)
    (tables : List AccessTable) (fileName : String) (cache : ReCache ρ)
    (p : String) (hp : p ∈ (canAccessRun e cache tables fileName).2.2) :
    cacheLookup (canAccessRun e cache tables fileName).2.1 p
      = some (e.compile p) := by
  induction tables generalizing cache with
  | nil => simp [canAccessRun] at hp
  | cons t rest ih =>
    cases hl : cacheLookup cache t.Regex with
    | some q =>
      cases q with
      | none =>
        rw [canAccessRun_hit_skip e cache t rest fileName hl] at hp ⊢
        exact ih cache hp
      | some re =>
        cases hm : e.rmatch re fileName with
        | true =>
          rw [canAccessRun_hit_match e cache t rest fileName re hl hm] at hp
          simp at hp
        | false =>
          rw [canAccessRun_hit_nomatch e cache t rest fileName re hl hm] at hp ⊢
          exact ih cache hp
    | none =>
      have hstored : ∀ v : Option ρ,
          cacheLookup (cache ++ [(t.Regex, v)]) t.Regex = some v := by
        intro v
        rw [cacheLookup_append, hl]
        simp [cacheLookup]
      cases hcomp : e.compile t.Regex with
      | some re =>
        cases hm : e.rmatch re fileName with
        | true =>
          rw [canAccessRun_miss_match e cache t rest fileName re hl hcomp hm] at hp ⊢
          simp only [List.mem_singleton] at hp
          subst hp
          rw [hstored (some re), hcomp]
        | false =>
          rw [canAccessRun_miss_nomatch e cache t rest fileName re hl hcomp hm] at hp ⊢
          simp only [List.mem_cons] at hp
          cases hp with
          | inl hp =>
            subst hp
            obtain ⟨d, hd⟩ :=
              canAccessRun_cache_extends e rest fileName (cache ++ [(t.Regex, some re)])
            rw [hd]
            rw [cacheLookup_append_of_some _ _ _ _ (hstored (some re)), hcomp]
          | inr hp =>
            exact ih (cache ++ [(t.Regex, some re)]) hp
      | none =>
        rw [canAccessRun_miss_invalid e cache t rest fileName hl hcomp] at hp ⊢
        simp only [List.mem_cons] at hp
        cases hp with
        | inl hp =>
          subst hp
          obtain ⟨d, hd⟩ :=
            canAccessRun_cache_extends e rest fileName (cache ++ [(t.Regex, none)])
          rw [hd]
          rw [cacheLookup_append_of_some _ _ _ _ (hstored none), hcomp]
        | inr hp =>
          exact ih (cache ++ [(t.Regex, none)]) hp

theorem canAccessRun_log_nodup {ρ} (e : RegexEngine ρ)
    (tables : List AccessTable) (fileName : String) (cache : ReCache ρ) :
    (canAccessRun e cache tables fileName).2.2.Nodup := by
  induction tables generalizing cache with
  | nil => simp [canAccessRun]
  | cons t rest ih =>
    cases hl : cacheLookup cache t.Regex with
    | some q =>
      cases q with
      | none =>
        rw [canAccessRun_hit_skip e cache t rest fileName hl]
        exact ih cache
      | some re =>
        cases hm : e.rmatch re fileName with
        | true =>
          rw [canAccessRun_hit_match e cache t rest fileName re hl hm]
          simp
        | false =>
          rw [canAccessRun_hit_nomatch e cache t rest fileName re hl hm]
          exact ih cache
    | none =>
      have hstored : ∀ v : Option ρ,
          cacheLookup (cache ++ [(t.Regex, v)]) t.Regex = some v := by
        intro v
        rw [cacheLookup_append, hl]
        simp [cacheLookup]
      cases hcomp : e.compile t.Regex with
      | some re =>
        cases hm : e.rmatch re fileName with
        | true =>
          rw [canAccessRun_miss_match e cache t rest fileName re hl hcomp hm]
          simp
        | false =>
          rw [canAccessRun_miss_nomatch e cache t rest fileName re hl hcomp hm]
          refine List.nodup_cons.mpr ⟨?_, ih (cache ++ [(t.Regex, some re)])⟩
          exact canAccessRun_log_fresh e rest fileName
            (cache ++ [(t.Regex, some re)]) t.Regex
            (by rw [hstored (some re)]; exact fun h => nomatch h)
      | none =>
        rw [canAccessRun_miss_invalid e cache t rest fileName hl hcomp]
        refine List.nodup_cons.mpr ⟨?_, ih (cache ++ [(t.Regex, none)])⟩
        exact canAccessRun_log_fresh e rest fileName
          (cache ++ [(t.Regex, none)]) t.Regex
          (by rw [hstored none]; exact fun h => nomatch h)

/-- C3: a rule whose pattern fails to compile matches nothing (and is
skipped, so a policy whose rules are all invalid default-allows every file
name); a pattern already in the cache — including a failed one, cached as
nil — is never handed to the compiler again; every pattern compiled during
a run is cached afterwards with its compilation result; and no pattern is
compiled twice within one run. -/
theorem C3_invalid_pattern_safety {ρ} (e : RegexEngine ρ) (cache : ReCache ρ)
    (tables : List AccessTable) (fileName : String) :
    (∀ pat fn, e.compile pat = none → patternMatches e pat fn = false)
    ∧ (cacheConsistent e cache → (∀ t ∈ tables, e.compile t.Regex = none)
        → (canAccessRun e cache tables fileName).1 = true)
    ∧ (∀ p, cacheLookup cache p ≠ none
        → p ∉ (canAccessRun e cache tables fileName).2.2)
    ∧ (∀ p, p ∈ (canAccessRun e cache tables fileName).2.2
        → cacheLookup (canAccessRun e cache tables fileName).2.1 p
            = some (e.compile p))
    ∧ (canAccessRun e cache tables fileName).2.2.Nodup := by
  refine ⟨?_, ?_, ?_, ?_, canAccessRun_log_nodup e tables fileName cache⟩
  · intro pat fn hbad
    rw [patternMatches, hbad]
  · intro hc hall
    rw [canAccessRun_fst_eq_find e tables fileName cache hc]
    have hnone : tables.find? (fun t => patternMatches e t.Regex fileName) = none := by
      rw [List.find?_eq_none]
      intro t ht
      simp [patternMatches, hall t ht]
    rw [hnone]
    rfl
  · exact fun p hp => canAccessRun_log_fresh e tables fileName cache p hp
  · exact fun p hp => canAccessRun_log_in_final e tables fileName cache p hp

/-- A policy whose two rules are both syntactically invalid patterns. -/
def badRulesConf : AccessConf :=
  { Upload := false, Delete := false, Users := []
    AccessTables := [⟨"(", false⟩, ⟨"[", false⟩] }

/-- Witness for C3: under the demo engine (which rejects both patterns of
`badRulesConf`), every file name is allowed, starting from the empty
cache. -/
theorem C3_invalid_pattern_safety_witness :
    (canAccessRun demoEngine [] badRulesConf.AccessTables "x.secret").1 = true :=
  (C3_invalid_pattern_safety demoEngine [] badRulesConf.AccessTables
      "x.secret").2.1 (fun _ _ h => nomatch h) (by decide)

/-- The search branch of `hJSONList` up to the map fill: query the index,
truncate the result list to the first 50 items, and keep those whose path
has the request path as a prefix (`filepath.HasPrefix`). -/
def searchSelected (indexes : List IndexFileItem) (search requestPath : String) :
    List IndexFileItem :=
  let results := findIndex indexes search
  let results := if results.length > 50 then results.take 50 else results
  results.filter (fun item => strStarts item.Path requestPath)

/-- Insertion into the Go map `fileInfoMap`: keyed by path, replacing the
value on a duplicate key. -/
def mapInsert (m : List (String × FileInfo)) (k : String) (v : FileInfo) :
    List (String × FileInfo) :=
  if m.any (fun kv => kv.1 = k) then
    m.map (fun kv => if kv.1 = k then (k, v) else kv)
  else m ++ [(k, v)]

/-- The `fileInfoMap` contents in the search branch of `hJSONList`. -/
def searchFileInfoMap (indexes : List IndexFileItem) (search requestPath : String) :
    List (String × FileInfo) :=
  (searchSelected indexes search requestPath).foldl
    (fun m item => mapInsert m item.Path item.Info) []

/-- The listing rows of the search branch: the map entries whose base name
passes `canAccess` under the resolved policy. -/
def searchListing {ρ} (e : RegexEngine ρ) (cache : ReCache ρ) (auth : AccessConf)
    (indexes : List IndexFileItem) (search requestPath : String) :
    List (String × FileInfo) :=
  (searchFileInfoMap indexes search requestPath).filter
    (fun kv => (canAccessRun e cache auth.AccessTables kv.2.name).1)

/-- The keys (request-scoped paths) of a map. -/
def mapKeys (m : List (String × FileInfo)) : List String :=
  m.map (fun kv => kv.1)

theorem mapInsert_length_le (m : List (String × FileInfo)) (k : String)
    (v : FileInfo) : (mapInsert m k v).length ≤ m.length + 1 := by
  rw [mapInsert]
  by_cases h : m.any (fun kv => kv.1 = k)
  · simp [h]
  · simp [h]

theorem foldl_mapInsert_length_le (l : List IndexFileItem)
    (m : List (String × FileInfo)) :
    (l.foldl (fun m item => mapInsert m item.Path item.Info) m).length
      ≤ m.length + l.length := by
  induction l generalizing m with
  | nil => simp
  | cons a rest ih =>
    calc (List.foldl (fun m item => mapInsert m item.Path item.Info)
            (mapInsert m a.Path a.Info) rest).length
        ≤ (mapInsert m a.Path a.Info).length + rest.length := ih _
      _ ≤ (m.length + 1) + rest.length := by
          have := mapInsert_length_le m a.Path a.Info
          omega
      _ = m.length + (a :: rest).length := by simp; omega

theorem searchSelected_length_le (indexes : List IndexFileItem)
    (search requestPath : String) :
    (searchSelected indexes search requestPath).length ≤ 50 := by
  rw [searchSelected]
  by_cases h : (findIndex indexes search).length > 50
  · rw [if_pos h]
    have h1 := List.length_filter_le (fun item => strStarts item.Path requestPath)
      ((findIndex indexes search).take 50)
    have h2 : ((findIndex indexes search).take 50).length ≤ 50 := by simp
    omega
  · rw [if_neg h]
    have h1 := List.length_filter_le (fun item => strStarts item.Path requestPath)
      (findIndex indexes search)
    omega

theorem mapKeys_mapInsert_mem (m : List (String × FileInfo)) (k k' : String)
    (v : FileInfo) (hk : k ∈ mapKeys m) : k ∈ mapKeys (mapInsert m k' v) := by
  rw [mapInsert]
  by_cases h : m.any (fun kv => kv.1 = k')
  · rw [if_pos h]
    rw [mapKeys, List.map_map]
    rw [mapKeys, List.mem_map] at hk
    obtain ⟨kv, hkv, hkvk⟩ := hk
    rw [List.mem_map]
    refine ⟨kv, hkv, ?_⟩
    simp only [Function.comp]
    by_cases hkk : kv.1 = k'
    · rw [if_pos hkk]
      show k' = k
      rw [← hkk, hkvk]
    · rw [if_neg hkk]
      exact hkvk
  · rw [if_neg h]
    rw [mapKeys, List.map_append]
    exact List.mem_append_left _ hk

theorem mapKeys_mapInsert_self (m : List (String × FileInfo)) (k : String)
    (v : FileInfo) : k ∈ mapKeys (mapInsert m k v) := by
  rw [mapInsert]
  by_cases h : m.any (fun kv => kv.1 = k)
  · rw [if_pos h]
    rw [List.any_eq_true] at h
    obtain ⟨kv, hkv, hkvk⟩ := h
    rw [mapKeys, List.map_map, List.mem_map]
    refine ⟨kv, hkv, ?_⟩
    simp only [Function.comp]
    rw [if_pos (of_decide_eq_true hkvk)]
  · rw [if_neg h]
    rw [mapKeys, List.map_append]
    exact List.mem_append_right _ (by simp)

theorem mapKeys_foldl_mapInsert (l : List IndexFileItem)
    (m : List (String × FileInfo)) (k : String)
    (hk : k ∈ mapKeys m ∨ k ∈ l.map IndexFileItem.Path) :
    k ∈ mapKeys (l.foldl (fun m item => mapInsert m item.Path item.Info) m) := by
  induction l generalizing m with
  | nil =>
    rcases hk with hk | hk
    · exact hk
    · simp at hk
  | cons a rest ih =>
    simp only [List.foldl_cons]
    rcases hk with hk | hk
    · exact ih _ (Or.inl (mapKeys_mapInsert_mem m k a.Path a.Info hk))
    · simp only [List.map_cons, List.mem_cons] at hk
      rcases hk with hk | hk
      · subst hk
        exact ih _ (Or.inl (mapKeys_mapInsert_self m a.Path a.Info))
      · exact ih _ (Or.inr hk)

/-- Policy with no path rules at all (so `canAccess` default-allows). -/
def noRulesConf : AccessConf :=
  { Upload := false, Delete := false, Users := [], AccessTables := [] }

/-- 80 distinct files, all of whose paths contain `f`. -/
def capIndexes80 : List IndexFileItem :=
  (List.range 80).map (fun i => ⟨"b/f" ++ toString i, demoFileInfo⟩)

/-- 50 decoy files under `b/` followed by a single file under `a/`; every
path contains `f`, so the query `"f"` matches all 51. -/
def capIndexes51 : List IndexFileItem :=
  ((List.range 50).map (fun i => ⟨"b/f" ++ toString i, demoFileInfo⟩))
    ++ [⟨"a/f50", demoFileInfo⟩]

/-- Counterexample to C5 as stated: under the query `"f"` at request path
`"a"`, exactly one index match carries the prefix `a` (fewer than 50), yet
the listing is empty — because `hJSONList` truncates to the first 50
matches BEFORE applying the prefix restriction, and the lone `a/` match
sits at position 51. -/
theorem C5_counterexample_prefix_after_cap :
    ((findIndex capIndexes51 "f").filter
        (fun it => strStarts it.Path "a")).length = 1
    ∧ (1 : Nat) < 50
    ∧ searchListing demoEngine [] noRulesConf capIndexes51 "f" "a" = [] := by
  refine ⟨by decide, by decide, by decide⟩

/-- C5 (amended): the listing takes the FIRST 50 SearchIndex matches and
then keeps those whose path has the request path as a prefix (the caller,
not `findIndex`, enforces both the cap and the restriction — `findIndex`
itself returns all 80 matches of the 80-entry example); hence at most 50
listing entries are produced, and whenever the query yields at most 50
matches IN TOTAL, every match with the prefix appears in the listing. -/
theorem C5_search_cap_and_truncated_matches {ρ} (e : RegexEngine ρ)
    (cache : ReCache ρ) (auth : AccessConf) (indexes : List IndexFileItem)
    (search requestPath : String) :
    ((searchListing e cache auth indexes search requestPath).length ≤ 50)
    ∧ ((findIndex indexes search).length ≤ 50 → auth.AccessTables = [] →
        ∀ item ∈ findIndex indexes search,
          strStarts item.Path requestPath = true →
          item.Path ∈ mapKeys (searchListing e cache auth indexes search requestPath))
    ∧ (findIndex capIndexes80 "f").length = 80
    ∧ (searchListing demoEngine [] noRulesConf capIndexes80 "f" "").length = 50 := by
  refine ⟨?_, ?_, by decide, by decide⟩
  · calc (searchListing e cache auth indexes search requestPath).length
        ≤ (searchFileInfoMap indexes search requestPath).length :=
          List.length_filter_le _ _
      _ ≤ 0 + (searchSelected indexes search requestPath).length :=
          foldl_mapInsert_length_le _ _
      _ ≤ 50 := by
          have := searchSelected_length_le indexes search requestPath
          omega
  · intro hlen htab item hitem hstart
    have hsel : item ∈ searchSelected indexes search requestPath := by
      rw [searchSelected]
      have hnot : ¬ ((findIndex indexes search).length > 50) := by omega
      rw [if_neg hnot]
      rw [List.mem_filter]
      exact ⟨hitem, hstart⟩
    have hmapkey : item.Path ∈ mapKeys (searchFileInfoMap indexes search requestPath) := by
      rw [searchFileInfoMap]
      exact mapKeys_foldl_mapInsert _ []  item.Path
        (Or.inr (List.mem_map_of_mem IndexFileItem.Path hsel))
    rw [searchListing, htab]
    have hall : (searchFileInfoMap indexes search requestPath).filter
        (fun kv => (canAccessRun e cache ([] : List AccessTable) kv.2.name).1)
          = searchFileInfoMap indexes search requestPath := by
      rw [List.filter_eq_self]
      intro kv _
      rfl
    rw [hall]
    exact hmapkey

/-- A two-file index for the witness: only `a/x` matches the query `"x"`. -/
def smallIndexes : List IndexFileItem :=
  [⟨"a/x", demoFileInfo⟩, ⟨"b/y", demoFileInfo⟩]

/-- Witness for C5 (amended) at concrete inputs: the query `"x"` yields one
match in total, and that match, having the request prefix `a`, appears in
the listing. -/
theorem C5_search_cap_and_truncated_matches_witness :
    "a/x" ∈ mapKeys (searchListing demoEngine [] noRulesConf smallIndexes "x" "a") :=
  (C5_search_cap_and_truncated_matches demoEngine [] noRulesConf smallIndexes
      "x" "a").2.1 (by decide) rfl ⟨"a/x", demoFileInfo⟩ (by decide) (by decide)

/-- The directory reads `deepPath` performs: `readDir p` is the child list
of the directory at slash-joined path `p`, or `none` on a read error. -/
structure DirFS where
  readDir : String → Option (List FileInfo)

/-- `filepath.Join` + `ToSlash` on simple relative segments. -/
def joinSlash (a b : String) : String := a ++ "/" ++ b

/-- The body of `deepPath`'s for-loop, one iteration per fuel unit: break
on a read error, on a child count other than one, or on a single child
that is not a directory; otherwise extend the displayed name with the
single child and continue. -/
def deepPathLoop (fs : DirFS) (basedir : String) : Nat → String → String
  | 0, name => name
  | fuel + 1, name =>
    match fs.readDir (joinSlash basedir name) with
    | none => name
    | some finfos =>
      match finfos with
      | [f] =>
        if f.isDir then deepPathLoop fs basedir fuel (joinSlash name f.name)
        else name
      | _ => name

/-- `deepPath` from the source. The loop header is
`for depth := 0; depth <= maxDepth && isDir; depth += 1` with
`maxDepth = 5` and `isDir` never set to false, so the body runs for
`depth` = 0,1,2,3,4,5 — up to SIX iterations, each of which can fold one
single-child hop. -/
def deepPath (fs : DirFS) (basedir name : String) : String :=
  deepPathLoop fs basedir 6 name

/-- Filesystem for the folding examples, rooted at `t`: `a/b/c/file.txt`
with `a`, `b` single-child chains; `m` has two children; `e` is
unreadable. -/
def foldDemoFS : DirFS :=
  { readDir := fun p =>
      if p = "t/a" then some [⟨"b", true, 0, 0⟩]
      else if p = "t/a/b" then some [⟨"c", true, 0, 0⟩]
      else if p = "t/a/b/c" then some [⟨"file.txt", false, 0, 0⟩]
      else if p = "t/m" then some [⟨"p", true, 0, 0⟩, ⟨"q", true, 0, 0⟩]
      else none }

/-- A chain of eight nested single-child directories `c1/c2/.../c8`. -/
def chainFS : DirFS :=
  { readDir := fun p =>
      if p = "t/c1" then some [⟨"c2", true, 0, 0⟩]
      else if p = "t/c1/c2" then some [⟨"c3", true, 0, 0⟩]
      else if p = "t/c1/c2/c3" then some [⟨"c4", true, 0, 0⟩]
      else if p = "t/c1/c2/c3/c4" then some [⟨"c5", true, 0, 0⟩]
      else if p = "t/c1/c2/c3/c4/c5" then some [⟨"c6", true, 0, 0⟩]
      else if p = "t/c1/c2/c3/c4/c5/c6" then some [⟨"c7", true, 0, 0⟩]
      else if p = "t/c1/c2/c3/c4/c5/c6/c7" then some [⟨"c8", true, 0, 0⟩]
      else none }

/-- C6, evaluated on the code: folding works as claimed on `a/b/c/file.txt`
(one folded entry `a/b/c`), stops at a fold point with two children, stops
on a read error — but on a chain of eight nested single-child directories
the loop folds SIX hops (`c1/c2/c3/c4/c5/c6/c7`), exceeding the claimed
maximum of five: the loop `for depth := 0; depth <= maxDepth` with
`maxDepth = 5` runs six times, contradicting the code's own
`// loop max 5` comment. -/
theorem C6_single_child_folding_evaluation :
    deepPath foldDemoFS "t" "a" = "a/b/c"
    ∧ deepPath foldDemoFS "t" "m" = "m"
    ∧ deepPath foldDemoFS "t" "e" = "e"
    ∧ deepPath chainFS "t" "c1" = "c1/c2/c3/c4/c5/c6/c7" := by
  refine ⟨by decide, by decide, by decide, by decide⟩

/-- A filesystem subtree as the index walk sees it: a regular file with
its metadata, a directory whose child list is readable or not, or an entry
whose lstat fails. -/
inductive FTree where
  | file (info : FileInfo)
  | dir (readable : Bool) (children : List (String × FTree))
  | broken

/-- A walk callback's return value: nil, `filepath.SkipDir`, or an error. -/
inductive WalkRet where
  | ok
  | skipDir
  | err
deriving DecidableEq, Repr

/-- A `filepath.WalkFunc` threading state of type `σ`: arguments are the
state, the visited path's segments relative to the root, the entry's
metadata (`none` when lstat failed) and whether the visit reports an
error. -/
def WalkFn (σ : Type) := σ → List String → Option FileInfo → Bool → σ × WalkRet

/-- Whether a tree node is a directory. -/
def FTree.isDirNode : FTree → Bool
  | FTree.dir _ _ => true
  | _ => false

mutual
/-- Go `filepath.Walk`'s recursive worker, modelled from the standard
library's documented semantics (an external collaborator): visit the node;
a directory whose child list cannot be read reports the error to the
callback; otherwise the children are visited in order, `SkipDir` on a
directory skipping that subtree while the walk continues. -/
def goWalk {σ : Type} (fn : WalkFn σ) (s : σ) (path : List String)
    (name : String) : FTree → σ × WalkRet
  | FTree.file info => fn s path (some info) false
  | FTree.dir readable children =>
    match fn s path (some ⟨name, true, 0, 0⟩) false with
    | (s1, WalkRet.ok) =>
      if readable then goWalkChildren fn s1 path children
      else fn s1 path (some ⟨name, true, 0, 0⟩) true
    | (s1, WalkRet.skipDir) => (s1, WalkRet.ok)
    | (s1, WalkRet.err) => (s1, WalkRet.err)
  | FTree.broken => (s, WalkRet.ok)

/-- The child loop of `filepath.Walk`: a child whose lstat fails is
reported to the callback (error return aborts, anything else continues); a
walked child aborting with an error stops the loop; `SkipDir` from a
directory child is swallowed and the loop continues. -/
def goWalkChildren {σ : Type} (fn : WalkFn σ) (s : σ) (path : List String) :
    List (String × FTree) → σ × WalkRet
  | [] => (s, WalkRet.ok)
  | (name, child) :: rest =>
    match child with
    | FTree.broken =>
      match fn s (path ++ [name]) none true with
      | (s1, WalkRet.err) => (s1, WalkRet.err)
      | (s1, _) => goWalkChildren fn s1 path rest
    | c =>
      match goWalk fn s (path ++ [name]) name c with
      | (s1, WalkRet.ok) => goWalkChildren fn s1 path rest
      | (s1, WalkRet.skipDir) =>
        if c.isDirNode then goWalkChildren fn s1 path rest
        else (s1, WalkRet.skipDir)
      | (s1, WalkRet.err) => (s1, WalkRet.err)
end

/-- Go `filepath.Walk` on a rooted tree: lstat the root, reporting a
failure to the callback; a final `SkipDir` is converted to nil. -/
def goWalkTop {σ : Type} (fn : WalkFn σ) (s : σ) (root : FTree) : σ × WalkRet :=
  match root with
  | FTree.broken =>
    match fn s [] none true with
    | (s1, WalkRet.skipDir) => (s1, WalkRet.ok)
    | (s1, r) => (s1, r)
  | t =>
    match goWalk fn s [] "" t with
    | (s1, WalkRet.skipDir) => (s1, WalkRet.ok)
    | (s1, r) => (s1, r)

/-- Slash join of root-relative segments (`filepath.Rel` against the root
followed by `ToSlash`). -/
def joinSegs : List String → String
  | [] => ""
  | [seg] => seg
  | seg :: rest => seg ++ "/" ++ joinSegs rest

/-- The walk callback of `makeIndex`: any visit error is logged and
answered with `filepath.SkipDir`; directories are not indexed; files are
appended to the accumulator with their root-relative slash path. -/
def makeIndexFn : WalkFn (List IndexFileItem) :=
  fun indexes path info isErr =>
    if isErr then (indexes, WalkRet.skipDir)
    else
      match info with
      | some i =>
        if i.isDir then (indexes, WalkRet.ok)
        else (indexes ++ [⟨joinSegs path, i⟩], WalkRet.ok)
      | none => (indexes, WalkRet.ok)

/-- `makeIndex` from the source: walk the root with `makeIndexFn` starting
from an empty entry list; the first component is the published snapshot,
the second `filepath.Walk`'s returned error value. -/
def makeIndex (root : FTree) : List IndexFileItem × WalkRet :=
  goWalkTop makeIndexFn [] root

mutual
theorem goWalk_preserves {σ : Type} (P : σ → Prop) (fn : WalkFn σ)
    (hfn : ∀ s path info isErr, P s → P (fn s path info isErr).1)
    (t : FTree) (s : σ) (path : List String) (name : String) (hs : P s) :
    P (goWalk fn s path name t).1 := by
  cases t with
  | file info => exact hfn s path (some info) false hs
  | broken => exact hs
  | dir readable children =>
    rcases hr : fn s path (some ⟨name, true, 0, 0⟩) false with ⟨s1, r⟩
    have hs1 : P s1 := by
      have := hfn s path (some ⟨name, true, 0, 0⟩) false hs
      rw [hr] at this
      exact this
    rw [goWalk, hr]
    cases r with
    | ok =>
      cases readable with
      | true => exact goWalkChildren_preserves P fn hfn children s1 path hs1
      | false =>
        have := hfn s1 path (some ⟨name, true, 0, 0⟩) true hs1
        exact this
    | skipDir => exact hs1
    | err => exact hs1

theorem goWalkChildren_preserves {σ : Type} (P : σ → Prop) (fn : WalkFn σ)
    (hfn : ∀ s path info isErr, P s → P (fn s path info isErr).1)
    (l : List (String × FTree)) (s : σ) (path : List String) (hs : P s) :
    P (goWalkChildren fn s path l).1 := by
  match l with
  | [] => exact hs
  | (name, child) :: rest =>
    cases child with
    | broken =>
      rcases hr : fn s (path ++ [name]) none true with ⟨s1, r⟩
      have hs1 : P s1 := by
        have := hfn s (path ++ [name]) none true hs
        rw [hr] at this
        exact this
      rw [goWalkChildren, hr]
      cases r with
      | err => exact hs1
      | ok => exact goWalkChildren_preserves P fn hfn rest s1 path hs1
      | skipDir => exact goWalkChildren_preserves P fn hfn rest s1 path hs1
    | file info =>
      rcases hr : goWalk fn s (path ++ [name]) name (FTree.file info) with ⟨s1, r⟩
      have hs1 : P s1 := by
        have := goWalk_preserves P fn hfn (FTree.file info) s (path ++ [name]) name hs
        rw [hr] at this
        exact this
      rw [goWalkChildren, hr]
      case x_1 => exact fun h => nomatch h
      cases r with
      | ok => exact goWalkChildren_preserves P fn hfn rest s1 path hs1
      | skipDir => exact hs1
      | err => exact hs1
    | dir readable children =>
      rcases hr : goWalk fn s (path ++ [name]) name (FTree.dir readable children) with ⟨s1, r⟩
      have hs1 : P s1 := by
        have := goWalk_preserves P fn hfn (FTree.dir readable children) s
          (path ++ [name]) name hs
        rw [hr] at this
        exact this
      rw [goWalkChildren, hr]
      case x_1 => exact fun h => nomatch h
      cases r with
      | ok => exact goWalkChildren_preserves P fn hfn rest s1 path hs1
      | skipDir => exact goWalkChildren_preserves P fn hfn rest s1 path hs1
      | err => exact hs1
end

theorem makeIndexFn_ret_ne_err (s : List IndexFileItem) (path : List String)
    (info : Option FileInfo) (isErr : Bool) :
    (makeIndexFn s path info isErr).2 ≠ WalkRet.err := by
  cases isErr with
  | true => exact fun h => nomatch h
  | false =>
    cases info with
    | none => exact fun h => nomatch h
    | some i =>
      cases hi : i.isDir with
      | true => simp [makeIndexFn, hi]
      | false => simp [makeIndexFn, hi]

mutual
theorem goWalk_makeIndexFn_ne_err (t : FTree) (s : List IndexFileItem)
    (path : List String) (name : String) :
    (goWalk makeIndexFn s path name t).2 ≠ WalkRet.err := by
  cases t with
  | file info => exact makeIndexFn_ret_ne_err s path (some info) false
  | broken => exact fun h => nomatch h
  | dir readable children =>
    rcases hr : makeIndexFn s path (some ⟨name, true, 0, 0⟩) false with ⟨s1, r⟩
    rw [goWalk, hr]
    cases r with
    | ok =>
      cases readable with
      | true => exact goWalkChildren_makeIndexFn_ne_err children s1 path
      | false => exact makeIndexFn_ret_ne_err s1 path (some ⟨name, true, 0, 0⟩) true
    | skipDir => exact fun h => nomatch h
    | err =>
      have := makeIndexFn_ret_ne_err s path (some ⟨name, true, 0, 0⟩) false
      rw [hr] at this
      exact absurd rfl this

theorem goWalkChildren_makeIndexFn_ne_err (l : List (String × FTree))
    (s : List IndexFileItem) (path : List String) :
    (goWalkChildren makeIndexFn s path l).2 ≠ WalkRet.err := by
  match l with
  | [] => exact fun h => nomatch h
  | (name, child) :: rest =>
    cases child with
    | broken =>
      rcases hr : makeIndexFn s (path ++ [name]) none true with ⟨s1, r⟩
      rw [goWalkChildren, hr]
      cases r with
      | err =>
        have := makeIndexFn_ret_ne_err s (path ++ [name]) none true
        rw [hr] at this
        exact absurd rfl this
      | ok => exact goWalkChildren_makeIndexFn_ne_err rest s1 path
      | skipDir => exact goWalkChildren_makeIndexFn_ne_err rest s1 path
    | file info =>
      rcases hr : goWalk makeIndexFn s (path ++ [name]) name (FTree.file info) with ⟨s1, r⟩
      rw [goWalkChildren, hr]
      case x_1 => exact fun h => nomatch h
      cases r with
      | ok => exact goWalkChildren_makeIndexFn_ne_err rest s1 path
      | skipDir => exact fun h => nomatch h
      | err =>
        have := goWalk_makeIndexFn_ne_err (FTree.file info) s (path ++ [name]) name
        rw [hr] at this
        exact absurd rfl this
    | dir readable children =>
      rcases hr : goWalk makeIndexFn s (path ++ [name]) name
          (FTree.dir readable children) with ⟨s1, r⟩
      rw [goWalkChildren, hr]
      case x_1 => exact fun h => nomatch h
      cases r with
      | ok => exact goWalkChildren_makeIndexFn_ne_err rest s1 path
      | skipDir => exact goWalkChildren_makeIndexFn_ne_err rest s1 path
      | err =>
        have := goWalk_makeIndexFn_ne_err (FTree.dir readable children) s
          (path ++ [name]) name
        rw [hr] at this
        exact absurd rfl this
end

theorem goWalkTop_preserves {σ : Type} (P : σ → Prop) (fn : WalkFn σ)
    (hfn : ∀ s path info isErr, P s → P (fn s path info isErr).1)
    (root : FTree) (s : σ) (hs : P s) : P (goWalkTop fn s root).1 := by
  cases root with
  | broken =>
    rcases hr : fn s [] none true with ⟨s1, r⟩
    have hs1 : P s1 := by
      have := hfn s [] none true hs
      rw [hr] at this
      exact this
    rw [goWalkTop, hr]
    cases r with
    | ok => exact hs1
    | skipDir => exact hs1
    | err => exact hs1
  | file info =>
    rcases hr : goWalk fn s [] "" (FTree.file info) with ⟨s1, r⟩
    have hs1 : P s1 := by
      have := goWalk_preserves P fn hfn (FTree.file info) s [] "" hs
      rw [hr] at this
      exact this
    rw [goWalkTop, hr]
    case x => exact fun h => nomatch h
    cases r with
    | ok => exact hs1
    | skipDir => exact hs1
    | err => exact hs1
  | dir readable children =>
    rcases hr : goWalk fn s [] "" (FTree.dir readable children) with ⟨s1, r⟩
    have hs1 : P s1 := by
      have := goWalk_preserves P fn hfn (FTree.dir readable children) s [] "" hs
      rw [hr] at this
      exact this
    rw [goWalkTop, hr]
    case x => exact fun h => nomatch h
    cases r with
    | ok => exact hs1
    | skipDir => exact hs1
    | err => exact hs1

theorem makeIndex_ret_ok (root : FTree) : (makeIndex root).2 = WalkRet.ok := by
  rw [makeIndex]
  cases root with
  | broken => rfl
  | file info =>
    rcases hr : goWalk makeIndexFn [] [] "" (FTree.file info) with ⟨s1, r⟩
    rw [goWalkTop, hr]
    case x => exact fun h => nomatch h
    cases r with
    | ok => rfl
    | skipDir => rfl
    | err =>
      have := goWalk_makeIndexFn_ne_err (FTree.file info) [] [] ""
      rw [hr] at this
      exact absurd rfl this
  | dir readable children =>
    rcases hr : goWalk makeIndexFn [] [] "" (FTree.dir readable children) with ⟨s1, r⟩
    rw [goWalkTop, hr]
    case x => exact fun h => nomatch h
    cases r with
    | ok => rfl
    | skipDir => rfl
    | err =>
      have := goWalk_makeIndexFn_ne_err (FTree.dir readable children) [] [] ""
      rw [hr] at this
      exact absurd rfl this

theorem makeIndexFn_keeps_files (s : List IndexFileItem) (path : List String)
    (info : Option FileInfo) (isErr : Bool)
    (hs : (s.all (fun item => !item.Info.isDir)) = true) :
    ((makeIndexFn s path info isErr).1.all (fun item => !item.Info.isDir)) = true := by
  cases isErr with
  | true => exact hs
  | false =>
    cases info with
    | none => exact hs
    | some i =>
      cases hi : i.isDir with
      | true => simpa [makeIndexFn, hi] using hs
      | false => simp [makeIndexFn, hi, List.all_append, hs]

/-- A tree with a file `a`, a broken entry `bad`, a readable directory `d`
holding file `b`, and an unreadable directory `u` holding file `z`. -/
def demoTree : FTree :=
  FTree.dir true
    [("a", FTree.file ⟨"a", false, 3, 0⟩),
     ("bad", FTree.broken),
     ("d", FTree.dir true [("b", FTree.file ⟨"b", false, 7, 0⟩)]),
     ("u", FTree.dir false [("z", FTree.file ⟨"z", false, 9, 0⟩)])]

/-- Counterexample to C8 as stated: even when the ROOT itself cannot be
opened, `makeIndex` reports no error — the callback answers the root error
with `SkipDir`, which `filepath.Walk` converts to nil — so the failure
never escalates to a hard error; the published index is simply empty. -/
theorem C8_counterexample_broken_root :
    makeIndex FTree.broken = ([], WalkRet.ok) := rfl

/-- C8 (amended): only files become index entries (directories are
descended into but never indexed); a broken entry or an unreadable
directory child is skipped while the walk of its siblings continues; and
the build NEVER escalates to a hard error — `makeIndex`'s error value is
nil for every tree, including one whose root cannot be opened. On the demo
tree the index is exactly the two reachable files `a` and `d/b`. -/
theorem C8_index_build_error_tolerance :
    (∀ root, ((makeIndex root).1.all (fun item => !item.Info.isDir)) = true)
    ∧ (∀ s path name rest,
        goWalkChildren makeIndexFn s path ((name, FTree.broken) :: rest)
          = goWalkChildren makeIndexFn s path rest)
    ∧ (∀ s path name cs rest,
        goWalkChildren makeIndexFn s path ((name, FTree.dir false cs) :: rest)
          = goWalkChildren makeIndexFn s path rest)
    ∧ (∀ root, (makeIndex root).2 = WalkRet.ok)
    ∧ makeIndex demoTree
        = ([⟨"a", ⟨"a", false, 3, 0⟩⟩, ⟨"d/b", ⟨"b", false, 7, 0⟩⟩], WalkRet.ok) := by
  refine ⟨?_, fun s path name rest => rfl, fun s path name cs rest => rfl,
    makeIndex_ret_ok, by decide⟩
  intro root
  exact goWalkTop_preserves (fun l => (l.all (fun item => !item.Info.isDir)) = true)
    makeIndexFn makeIndexFn_keeps_files root [] rfl

end GHS
